import Mathlib

/-!
Verification of the trill response engine (crates trill_core and trill_script).

Shallow embedding conventions, used consistently below:

* Interned strings (the Rust type `Ustr`) are modeled as natural-number codes
  (`Name := Nat`).  The source orders `Ustr` values by their string contents and
  compares them for equality; every claim below depends only on that linear
  order and on equality, so an order-isomorphic encoding is faithful.
* Finite `f32` values are modeled by their rank in the total order of finite
  floats (`F32 := Int`).  The Rust `f32::next_up` / `f32::next_down` operations
  step to the adjacent representable float, which in the rank model is `+ 1` /
  `- 1`.  `f32::NEG_INFINITY` and `f32::INFINITY`, produced when an open range
  bound is materialized, are adjoined explicitly by the type `XF32`.
  NaN never arises in the modeled paths.
* `f32` criterion weights and rule scores are modeled as rational numbers with
  exact addition (`Weight := Rat`).  Scores interact only with weights (by
  addition) and with other scores (by comparison); they never meet the rank
  world of encoded values.
* Rust `HashMap`/`UstrMap`/`UstrSet` are modeled as association lists in
  insertion order, with replace-in-place semantics for `insert`.  Iteration
  order of a Rust `HashMap` is unspecified; the properties proved below do not
  depend on it.
* The 64-bit partition-key hash is modeled by the (sorted) assignment list
  itself; hash collisions are outside the model.
* Randomness (`choose`, `choose_weighted`) is abstracted by an oracle argument
  `pick : Nat` selecting among the candidates; the error conditions of
  `choose_weighted` (empty list, negative weight, zero total) are modeled
  exactly.  A Rust panic is modeled by `Except.error`.
-/

namespace Trill

/-- Interned string handles (`Ustr`), ordered like the strings they intern. -/
abbrev Name := Nat

/-- Rank of a finite `f32` in the total order of finite floats. -/
abbrev F32 := Int

/-- Exact model of `f32` weights and scores. -/
abbrev Weight := Rat

/-- `f32::next_up`: the next representable float above, as a rank step. -/
def nextUp (x : F32) : F32 := x + 1

/-- `f32::next_down`: the next representable float below, as a rank step. -/
def nextDown (x : F32) : F32 := x - 1

/-- The rank of `f32::MIN`, the smallest finite float (start of the encoder). -/
def rankF32Min : F32 := -(2 ^ 31)

/-- The rank of `0.0` (the encoding of the boolean `false`). -/
def rankZero : F32 := 0

/-- The rank of `1.0` (the encoding of the boolean `true`). -/
def rankOne : F32 := 2 ^ 23

/-- A finite float rank extended with the two infinities. -/
inductive XF32 where
  | negInf
  | fin (x : F32)
  | posInf
deriving DecidableEq, Repr

/-- The `f32` order on `XF32` (total; NaN is outside the model). -/
def XF32.le : XF32 → XF32 → Bool
  | .negInf, _ => true
  | _, .posInf => true
  | .fin a, .fin b => a ≤ b
  | _, _ => false

/-- Association-list lookup (model of `HashMap::get`). -/
def lookupA {α : Type} (k : Name) : List (Name × α) → Option α
  | [] => none
  | (k', v) :: rest => if k' = k then some v else lookupA k rest

/-- Association-list insert with replace-in-place (model of `HashMap::insert`). -/
def insertA {α : Type} (k : Name) (v : α) : List (Name × α) → List (Name × α)
  | [] => [(k, v)]
  | (k', v') :: rest => if k' = k then (k, v) :: rest else (k', v') :: insertA k v rest

/-- Model of `HashSet::insert`: whether the key was new, and the updated set. -/
def insertNew (k : Name) (s : List Name) : Bool × List Name :=
  if k ∈ s then (false, s) else (true, s ++ [k])

/-- Model of `UstrMap::remove`: the removed value (if any) and the rest. -/
def removeA {α : Type} (k : Name) : List (Name × α) → Option α × List (Name × α)
  | [] => (none, [])
  | (k', v) :: rest =>
      if k' = k then (some v, rest)
      else
        let r := removeA k rest
        (r.1, (k', v) :: r.2)

/-- bevy_mod_props `Value`: boolean, 32-bit float, or interned string. -/
inductive Value where
  | bool (b : Bool)
  | num (n : F32)
  | str (s : Name)
deriving DecidableEq, Repr

/-- trill_core `Encoder`: assigns each interned string a distinct float code,
starting at `f32::MIN` and advancing by `next_up` for every new string. -/
structure Encoder where
  nextFloat : F32
  encodings : List (Name × F32)
deriving DecidableEq, Repr

/-- `Encoder::default`. -/
def Encoder.init : Encoder := { nextFloat := rankF32Min, encodings := [] }

/-- `Encoder::encode_ustr`: look the string up, or assign the next free code. -/
def Encoder.encodeUstr (e : Encoder) (s : Name) : F32 × Encoder :=
  match lookupA s e.encodings with
  | some c => (c, e)
  | none =>
      (e.nextFloat,
       { nextFloat := nextUp e.nextFloat, encodings := e.encodings ++ [(s, e.nextFloat)] })

/-- `Encoder::encode`: booleans map to 0.0 / 1.0, numbers pass through,
strings go through `encode_ustr`. -/
def Encoder.encode (e : Encoder) (v : Value) : F32 × Encoder :=
  match v with
  | .bool false => (rankZero, e)
  | .bool true => (rankOne, e)
  | .num n => (n, e)
  | .str s => e.encodeUstr s

/-- trill_core `Scanner`: an ordered (name, encoded value) list with a cursor. -/
structure Scanner where
  items : List (Name × F32)
  cursor : Nat
deriving DecidableEq, Repr

/-- Position and contents of the first entry whose name is `≥ variable`
(model of `items[cursor..].iter().position(...)` plus the indexed access). -/
def findGe (varName : Name) : List (Name × F32) → Option (Nat × Name × F32)
  | [] => none
  | (v, x) :: rest =>
      if varName ≤ v then some (0, v, x)
      else (findGe varName rest).map fun p => (p.1 + 1, p.2)

/-- `Scanner::scan_to`: advance the cursor to the first entry with name
`≥ variable`; return the value exactly when the names are equal. -/
def Scanner.scanTo (s : Scanner) (varName : Name) : Option F32 × Scanner :=
  match findGe varName (s.items.drop s.cursor) with
  | some (i, v, value) =>
      (if v = varName then some value else none, { s with cursor := s.cursor + i })
  | none => (none, { s with cursor := s.items.length })

/-- `Scanner::reset`. -/
def Scanner.reset (s : Scanner) : Scanner := { s with cursor := 0 }

/-- trill_core `Query`: one scanner per input property set. -/
structure Query where
  scanners : List Scanner
deriving DecidableEq, Repr

/-- The `find_map` in `Query::scan_to`: each scanner that is consulted advances
its own cursor; scanners after the first hit are untouched. -/
def scanScanners (varName : Name) : List Scanner → Option F32 × List Scanner
  | [] => (none, [])
  | s :: rest =>
      let r := s.scanTo varName
      match r.1 with
      | some x => (some x, r.2 :: rest)
      | none =>
          let r' := scanScanners varName rest
          (r'.1, r.2 :: r'.2)

/-- `Query::scan_to`. -/
def Query.scanTo (q : Query) (varName : Name) : Option F32 × Query :=
  let r := scanScanners varName q.scanners
  (r.1, ⟨r.2⟩)

/-- `Query::reset`. -/
def Query.reset (q : Query) : Query := ⟨q.scanners.map Scanner.reset⟩

/-- trill_core `EngineCriterion`: a compiled (variable, min, max) triple. -/
structure EngineCriterion where
  var : Name
  min : XF32
  max : XF32
deriving DecidableEq, Repr

/-- Placeholder for the (unreachable) out-of-bounds criterion access. -/
def defaultCriterion : EngineCriterion := ⟨0, .negInf, .negInf⟩

/-- The indexed criterion access `all_criteria[i]` (in bounds in every state
the compiler constructs). -/
def criterionAt (ac : List EngineCriterion) (i : Nat) : EngineCriterion :=
  ac.getD i defaultCriterion

/-- trill_core `Operation`: a side-effect on one variable. -/
inductive Operation where
  | boolSet (b : Bool)
  | boolToggle
  | numSet (n : F32)
  | numAdd (n : F32)
  | strSet (s : Name)
deriving DecidableEq, Repr

/-- trill_core `EngineRule`: the compiled form of a rule. -/
structure EngineRule where
  criteria : List Nat
  responseGroups : List Nat
  instructions : List (Name × (Bool × Operation))
  score : Weight
  enabled : Bool
deriving DecidableEq, Repr

/-- trill_core `ResponseDispatcher`: the five stateful delivery policies. -/
inductive ResponseDispatcher where
  | shuffle (weights : List Weight) (candidates : List Nat)
  | random (weights : List Weight)
  | deplete (weights : List Weight) (candidates : List Nat)
  | loop (len : Nat) (index : Nat)
  | list (len : Nat) (index : Nat)
deriving DecidableEq, Repr

/-- trill_core `EngineResponseGroup`. -/
structure EngineResponseGroup where
  dispatcher : ResponseDispatcher
  responses : List (List (Name × String))
deriving DecidableEq, Repr

/-- The `PartitionKey` 64-bit hash, modeled by the hashed assignment list. -/
abbrev PartitionKey := List (Name × XF32)

/-- trill_core `RulePartitions`. -/
structure RulePartitions where
  vars : List Name
  partitions : List (PartitionKey × List EngineRule)
deriving DecidableEq, Repr

/-- trill_core `ResponseEngine`. -/
structure ResponseEngine where
  criteria : List EngineCriterion
  rules : RulePartitions
  responseGroups : List EngineResponseGroup
  encoder : Encoder
deriving DecidableEq, Repr

/-- trill_core `Predicate`: the four criterion predicates. -/
inductive Predicate where
  | boolEqual (b : Bool)
  | numEqual (n : F32)
  | numRange (lo hi : Option F32)
  | strEqual (s : Name)
deriving DecidableEq, Repr

/-- trill_core `Criterion`: a named predicate over one variable. -/
structure Criterion where
  var : Name
  predicate : Predicate
  weight : Weight
deriving DecidableEq, Repr

/-- trill_core `Instruction`. -/
structure Instruction where
  var : Name
  global : Bool
  operation : Operation
deriving DecidableEq, Repr

/-- trill_core `Rule`: criterion references, group references, instructions. -/
structure Rule where
  criteria : List Name
  responseGroups : List Name
  instructions : List Instruction
deriving DecidableEq, Repr

/-- trill_core `Delivery`. -/
inductive Delivery where
  | shuffle
  | random
  | deplete
  | loop
  | list
deriving DecidableEq, Repr

/-- trill_core `ResponseGroup`: a delivery policy and the response maps. -/
structure ResponseGroup where
  delivery : Delivery
  responses : List (List (Name × String))
deriving DecidableEq, Repr

/-- trill_core `Type` (renamed: `Type` is a Lean keyword). -/
inductive Ty where
  | bool
  | num
  | str
deriving DecidableEq, Repr

/-- trill_core `VariableLocation`. -/
inductive VariableLocation where
  | criterion (name : Name)
  | rule (name : Name)
deriving DecidableEq, Repr

/-- trill_core `VariableUsage`. -/
structure VariableUsage where
  inferedType : Ty
  location : VariableLocation
deriving DecidableEq, Repr

/-- trill_core `CompileError`: the five structured compile diagnostics. -/
inductive CompileError where
  | indeterminateVariableType (variableName : Name) (usages : List VariableUsage)
  | invalidWeightString (string : String) (inResponseGroup : Name)
  | missingCriterion (criterionName : Name) (inRule : Name)
  | missingResponseGroup (groupName : Name) (inRule : Name)
  | repeatedVariable (criterionName : Name) (inRule : Name)
deriving DecidableEq, Repr

/-- trill_core `Context`: mutable state shared by the compilation passes. -/
structure Context where
  errors : List CompileError
  encoder : Encoder
  variableUsages : List (Name × List VariableUsage)
deriving DecidableEq, Repr

/-- `Context::default`. -/
def Context.init : Context := ⟨[], Encoder.init, []⟩

/-- The `variable_usages` update both builders perform: push onto the existing
usage list of the variable, or insert a fresh singleton list. -/
def pushUsage (k : Name) (u : VariableUsage) :
    List (Name × List VariableUsage) → List (Name × List VariableUsage)
  | [] => [(k, [u])]
  | (k', us) :: rest =>
      if k' = k then (k', us ++ [u]) :: rest else (k', us) :: pushUsage k u rest

/-- The used-as type a criterion predicate records for its variable. -/
def predicateTy : Predicate → Ty
  | .boolEqual _ => .bool
  | .numEqual _ | .numRange _ _ => .num
  | .strEqual _ => .str

/-- `Criterion::build`: record the type usage, then reduce the predicate to a
closed (min, max) interval; string equality goes through the encoder. -/
def Criterion.build (c : Criterion) (name : Name) (ctx : Context) :
    EngineCriterion × Context :=
  let usage : VariableUsage := ⟨predicateTy c.predicate, .criterion name⟩
  let ctx := { ctx with variableUsages := pushUsage c.var usage ctx.variableUsages }
  match c.predicate with
  | .boolEqual false => (⟨c.var, .fin rankZero, .fin rankZero⟩, ctx)
  | .boolEqual true => (⟨c.var, .fin rankOne, .fin rankOne⟩, ctx)
  | .numEqual n => (⟨c.var, .fin n, .fin n⟩, ctx)
  | .numRange lo hi =>
      (⟨c.var, (lo.map XF32.fin).getD .negInf, (hi.map XF32.fin).getD .posInf⟩, ctx)
  | .strEqual s =>
      let r := ctx.encoder.encodeUstr s
      (⟨c.var, .fin r.1, .fin r.1⟩, { ctx with encoder := r.2 })

/-- The range branch of trill_script `parse_predicate`: an exclusive upper
bound is stepped down one ULP; a missing bound stays open. -/
def compileRange (start : Option F32) (inclusive : Bool) (stop : Option F32) : Predicate :=
  match stop with
  | some e => Predicate.numRange start (some (if inclusive then e else nextDown e))
  | none => Predicate.numRange start none

/-- The runtime criterion check of `match_rule_criteria`: `min ≤ value ≤ max`. -/
def criterionAccepts (c : EngineCriterion) (value : F32) : Bool :=
  XF32.le c.min (.fin value) && XF32.le (.fin value) c.max

/-- The used-as type an instruction operation records for its variable. -/
def operationTy : Operation → Ty
  | .boolSet _ | .boolToggle => .bool
  | .numSet _ | .numAdd _ => .num
  | .strSet _ => .str

/-- The instruction loop of `Rule::build`: every instruction records a type
usage, and the instruction map keeps the last entry per variable. -/
def buildInstructions (ruleName : Name) :
    List Instruction → List (Name × (Bool × Operation)) →
    List (Name × List VariableUsage) →
    List (Name × (Bool × Operation)) × List (Name × List VariableUsage)
  | [], m, us => (m, us)
  | inst :: rest, m, us =>
      buildInstructions ruleName rest
        (insertA inst.var (inst.global, inst.operation) m)
        (pushUsage inst.var ⟨operationTy inst.operation, .rule ruleName⟩ us)

/-- The accumulator of the criteria loop of `Rule::build`. -/
structure RuleAcc where
  score : Weight
  criteria : List Nat
  partitionKey : List (Name × XF32)
  used : List Name
  repeated : List Name
  errors : List CompileError
deriving DecidableEq, Repr

/-- The initial accumulator of the criteria loop of `Rule::build`. -/
def RuleAcc.init : RuleAcc := ⟨0, [], [], [], [], []⟩

/-- The criteria loop of `Rule::build`: resolve each referenced criterion; the
first use of a variable adds its weight to the score and lands either in the
partition-key assignments or in the scan list; a repeat of a variable is
diagnosed once; an unresolved name is diagnosed. -/
def buildRuleCriteria (ruleName : Name) (allCriteria : List EngineCriterion)
    (criteriaIndex : List (Name × (Nat × Weight × Bool))) :
    List Name → RuleAcc → RuleAcc
  | [], acc => acc
  | cname :: rest, acc =>
      match lookupA cname criteriaIndex with
      | some (i, weight, partition) =>
          let criterion := criterionAt allCriteria i
          if criterion.var ∈ acc.used then
            if criterion.var ∈ acc.repeated then
              buildRuleCriteria ruleName allCriteria criteriaIndex rest acc
            else
              buildRuleCriteria ruleName allCriteria criteriaIndex rest
                { acc with
                  repeated := acc.repeated ++ [criterion.var]
                  errors := acc.errors ++ [.repeatedVariable cname ruleName] }
          else
            let acc :=
              { acc with
                used := acc.used ++ [criterion.var]
                score := acc.score + weight }
            if partition then
              buildRuleCriteria ruleName allCriteria criteriaIndex rest
                { acc with partitionKey := acc.partitionKey ++ [(criterion.var, criterion.min)] }
            else
              buildRuleCriteria ruleName allCriteria criteriaIndex rest
                { acc with criteria := acc.criteria ++ [i] }
      | none =>
          buildRuleCriteria ruleName allCriteria criteriaIndex rest
            { acc with errors := acc.errors ++ [.missingCriterion cname ruleName] }

/-- The response-group loop of `Rule::build`. -/
def buildRuleGroups (ruleName : Name) (index : List (Name × Nat)) :
    List Name → List Nat × List CompileError
  | [] => ([], [])
  | gname :: rest =>
      let r := buildRuleGroups ruleName index rest
      match lookupA gname index with
      | some i => (i :: r.1, r.2)
      | none => (r.1, .missingResponseGroup gname ruleName :: r.2)

/-- `Rule::build`: instructions, criteria and group references, then both the
scan list and the partition key are sorted by variable name. -/
def Rule.build (r : Rule) (name : Name) (ctx : Context)
    (allCriteria : List EngineCriterion)
    (criteriaIndex : List (Name × (Nat × Weight × Bool)))
    (responseGroupsIndex : List (Name × Nat)) :
    (EngineRule × List (Name × XF32)) × Context :=
  let instr := buildInstructions name r.instructions [] ctx.variableUsages
  let acc := buildRuleCriteria name allCriteria criteriaIndex r.criteria RuleAcc.init
  let groups := buildRuleGroups name responseGroupsIndex r.responseGroups
  let criteria := List.insertionSort
    (fun i j => (criterionAt allCriteria i).var ≤ (criterionAt allCriteria j).var)
    acc.criteria
  let partitionKey := List.insertionSort (fun a b => a.1 ≤ b.1) acc.partitionKey
  let engine : EngineRule :=
    { criteria := criteria
      responseGroups := groups.1
      instructions := instr.1
      score := acc.score
      enabled := true }
  ((engine, partitionKey),
   { ctx with
     variableUsages := instr.2
     errors := ctx.errors ++ acc.errors ++ groups.2 })

/-- Digits of a decimal string, as a number together with the digit count
(`none` when a non-digit occurs). -/
def readDigits : List Char → Nat → Nat → Option (Nat × Nat)
  | [], n, k => some (n, k)
  | c :: rest, n, k =>
      if c.isDigit then readDigits rest (n * 10 + (c.toNat - 48)) (k + 1)
      else none

/-- Model of `str::parse::<f32>` on plain decimal strings: optional sign,
digits, optional fractional digits.  The Rust parser additionally accepts
exponents and special spellings; the modeled claims never exercise those, and
the only property used below is that some strings parse and others do not. -/
def parseF32 (s : String) : Option Weight :=
  let signed : Bool × List Char :=
    match s.data with
    | '-' :: rest => (true, rest)
    | '+' :: rest => (false, rest)
    | cs => (false, cs)
  let intPart := signed.2.takeWhile Char.isDigit
  let rest := signed.2.dropWhile Char.isDigit
  if intPart.isEmpty then none
  else
    match readDigits intPart 0 0 with
    | none => none
    | some (n, _) =>
        match rest with
        | [] => some (if signed.1 then -(n : Weight) else (n : Weight))
        | '.' :: frac =>
            match readDigits frac 0 0 with
            | some (f, k) =>
                if frac.isEmpty then none
                else
                  let mag : Weight := (n : Weight) + (f : Weight) / ((10 : Weight) ^ k)
                  some (if signed.1 then -mag else mag)
            | none => none
        | _ => none

/-- The interned string `"weight"`, the reserved response key. -/
def weightName : Name := 1000000

/-- The weight-extraction map of `ResponseGroup::build`: remove the reserved
`weight` key; a missing weight is 1.0, an unparseable one is diagnosed and
also falls back to 1.0. -/
def buildResponses (groupName : Name) :
    List (List (Name × String)) →
    List Weight × List (List (Name × String)) × List CompileError
  | [] => ([], [], [])
  | props :: rest =>
      let w := removeA weightName props
      let parsed : Weight × List CompileError :=
        match w.1 with
        | none => (1, [])
        | some s =>
            match parseF32 s with
            | some x => (x, [])
            | none => (1, [.invalidWeightString s groupName])
      let r := buildResponses groupName rest
      (parsed.1 :: r.1, w.2 :: r.2.1, parsed.2 ++ r.2.2)

/-- `ResponseGroup::build`: extract weights, then initialize the dispatcher
state for the chosen delivery policy. -/
def ResponseGroup.build (g : ResponseGroup) (name : Name) (ctx : Context) :
    EngineResponseGroup × Context :=
  let r := buildResponses name g.responses
  let weights := r.1
  let responses := r.2.1
  let dispatcher : ResponseDispatcher :=
    match g.delivery with
    | .shuffle => .shuffle weights (List.range responses.length)
    | .random => .random weights
    | .deplete => .deplete weights (List.range responses.length)
    | .loop => .loop responses.length 0
    | .list => .list responses.length 0
  (⟨dispatcher, responses⟩, { ctx with errors := ctx.errors ++ r.2.2 })

/-- A Rust panic reachable in the modeled code. -/
inductive PanicKind where
  | remainderByZero
deriving DecidableEq, Repr

/-- Model of rand `choose_weighted` over a list of indices: `none` exactly in
the error cases of the library (empty list, a negative weight, zero total);
otherwise the chosen index is selected by the abstract oracle `pick`. -/
def chooseWeighted (pick : Nat) (items : List Nat) (weight : Nat → Weight) : Option Nat :=
  if items.isEmpty then none
  else if items.any fun i => weight i < 0 then none
  else if (items.map weight).sum ≤ 0 then none
  else items.get? (pick % items.length)

/-- `ResponseDispatcher::next`: emit the next response index, updating the
dispatcher state.  The `Loop` arm computes `(index + 1) % len`, which in Rust
panics when `len == 0`; the panic is modeled as `Except.error`. -/
def ResponseDispatcher.next (d : ResponseDispatcher) (pick : Nat) :
    Except PanicKind (Option Nat × ResponseDispatcher) :=
  match d with
  | .shuffle weights candidates =>
      if weights.length = 1 then .ok (some 0, .shuffle weights candidates)
      else
        let candidateIndicies := List.range candidates.length
        match chooseWeighted pick candidateIndicies
            (fun i => weights.getD (candidates.getD i 0) 0) with
        | none => .ok (none, .shuffle weights candidates)
        | some i =>
            let val := candidates.getD i 0
            let remaining := candidates.eraseIdx i
            if remaining.length = 0 then
              .ok (some val, .shuffle weights ((List.range weights.length).eraseIdx val))
            else .ok (some val, .shuffle weights remaining)
  | .random weights =>
      if weights.length = 1 then .ok (some 0, .random weights)
      else
        let candidates := List.range weights.length
        .ok (chooseWeighted pick candidates (fun i => weights.getD i 0), .random weights)
  | .deplete weights candidates =>
      let candidateIndicies := List.range candidates.length
      match chooseWeighted pick candidateIndicies
          (fun i => weights.getD (candidates.getD i 0) 0) with
      | none => .ok (none, .deplete weights candidates)
      | some i => .ok (some (candidates.getD i 0), .deplete weights (candidates.eraseIdx i))
  | .loop len index =>
      if len = 0 then .error .remainderByZero
      else .ok (some index, .loop len ((index + 1) % len))
  | .list len index =>
      if index < len then .ok (some index, .list len (index + 1))
      else .ok (none, .list len index)

/-- `ResponseDispatcher::disable_rule`: Deplete disables its rule when the
candidate list is empty, List when the cursor reached the end; the other three
never disable their rule. -/
def ResponseDispatcher.disableRule : ResponseDispatcher → Bool
  | .shuffle _ _ | .loop _ _ | .random _ => false
  | .deplete _ candidates => candidates.isEmpty
  | .list len index => len = index

/-- trill_core `ResponseEngineCompiler`: the registered definitions. -/
structure ResponseEngineCompiler where
  partitionVariables : List Name
  criteria : List (Name × Criterion)
  rules : List (Name × Rule)
  responseGroups : List (Name × ResponseGroup)
deriving DecidableEq, Repr

/-- `ResponseEngineCompiler::new`. -/
def ResponseEngineCompiler.new : ResponseEngineCompiler := ⟨[], [], [], []⟩

/-- `ResponseEngineCompiler::with_partition_variable`. -/
def ResponseEngineCompiler.withPartitionVariable
    (c : ResponseEngineCompiler) (v : Name) : ResponseEngineCompiler :=
  { c with partitionVariables := (insertNew v c.partitionVariables).2 }

/-- `ResponseEngineCompiler::with_criterion`. -/
def ResponseEngineCompiler.withCriterion
    (c : ResponseEngineCompiler) (name : Name) (criterion : Criterion) :
    ResponseEngineCompiler :=
  { c with criteria := insertA name criterion c.criteria }

/-- `ResponseEngineCompiler::with_rule`. -/
def ResponseEngineCompiler.withRule
    (c : ResponseEngineCompiler) (name : Name) (rule : Rule) : ResponseEngineCompiler :=
  { c with rules := insertA name rule c.rules }

/-- `ResponseEngineCompiler::with_response_group`. -/
def ResponseEngineCompiler.withResponseGroup
    (c : ResponseEngineCompiler) (name : Name) (g : ResponseGroup) :
    ResponseEngineCompiler :=
  { c with responseGroups := insertA name g c.responseGroups }

/-- The criteria pass of `finish`: build each criterion, assign it its index,
and mark it partitionable when it is an exact equality on a declared
partition variable.  The enumeration index is the count built so far. -/
def compileCriteria (partitionVars : List Name) :
    List (Name × Criterion) →
    List EngineCriterion × List (Name × (Nat × Weight × Bool)) × Context →
    List EngineCriterion × List (Name × (Nat × Weight × Bool)) × Context
  | [], acc => acc
  | (name, criterion) :: rest, (ecs, idx, ctx) =>
      let i := ecs.length
      let weight := criterion.weight
      let r := criterion.build name ctx
      let partition := decide (r.1.min = r.1.max) && partitionVars.contains r.1.var
      compileCriteria partitionVars rest
        (ecs ++ [r.1], insertA name (i, weight, partition) idx, r.2)

/-- The response-group pass of `finish`. -/
def compileResponseGroups :
    List (Name × ResponseGroup) →
    List EngineResponseGroup × List (Name × Nat) × Context →
    List EngineResponseGroup × List (Name × Nat) × Context
  | [], acc => acc
  | (name, g) :: rest, (egs, idx, ctx) =>
      let i := egs.length
      let r := g.build name ctx
      compileResponseGroups rest (egs ++ [r.1], insertA name i idx, r.2)

/-- `partitions.entry(key).or_default().push(rule)`. -/
def appendToPartition (key : PartitionKey) (r : EngineRule) :
    List (PartitionKey × List EngineRule) → List (PartitionKey × List EngineRule)
  | [] => [(key, [r])]
  | (k, rs) :: rest =>
      if k = key then (k, rs ++ [r]) :: rest
      else (k, rs) :: appendToPartition key r rest

/-- The rules pass of `finish`: build each rule and push it into the partition
selected by its assignment key. -/
def compileRules (allCriteria : List EngineCriterion)
    (criteriaIndex : List (Name × (Nat × Weight × Bool)))
    (responseGroupsIndex : List (Name × Nat)) :
    List (Name × Rule) →
    List (PartitionKey × List EngineRule) × Context →
    List (PartitionKey × List EngineRule) × Context
  | [], acc => acc
  | (name, rule) :: rest, (partitions, ctx) =>
      let r := rule.build name ctx allCriteria criteriaIndex responseGroupsIndex
      compileRules allCriteria criteriaIndex responseGroupsIndex rest
        (appendToPartition r.1.2 r.1.1 partitions, r.2)

/-- `usages.windows(2).all(|w| w[0].infered_type == w[1].infered_type)`. -/
def coherent : List VariableUsage → Bool
  | [] => true
  | [_] => true
  | a :: b :: rest => a.inferedType = b.inferedType && coherent (b :: rest)

/-- The type-checking pass of `finish`: a variable used at two different types
is diagnosed with all its usages. -/
def typeCheck : List (Name × List VariableUsage) → List CompileError
  | [] => []
  | (v, usages) :: rest =>
      if coherent usages then typeCheck rest
      else .indeterminateVariableType v usages :: typeCheck rest

/-- `ResponseEngineCompiler::finish`: compile criteria, response groups and
rules, sort every partition by descending score, type-check, and emit the
engine only when no errors were collected. -/
def ResponseEngineCompiler.finish (c : ResponseEngineCompiler) :
    Option ResponseEngine × List CompileError :=
  let cr := compileCriteria c.partitionVariables c.criteria ([], [], Context.init)
  let criteria := cr.1
  let criteriaIndex := cr.2.1
  let gr := compileResponseGroups c.responseGroups ([], [], cr.2.2)
  let responseGroups := gr.1
  let responseGroupIndex := gr.2.1
  let partitionVariables := List.insertionSort (· ≤ ·) c.partitionVariables
  let rr := compileRules criteria criteriaIndex responseGroupIndex c.rules ([], gr.2.2)
  let partitions := rr.1.map fun kv =>
    (kv.1, List.insertionSort (fun (ra rb : EngineRule) => rb.score ≤ ra.score) kv.2)
  let ctx := rr.2
  let errors := ctx.errors ++ typeCheck ctx.variableUsages
  if errors.isEmpty then
    (some
      { criteria := criteria
        rules := ⟨partitionVariables, partitions⟩
        responseGroups := responseGroups
        encoder := ctx.encoder },
     errors)
  else (none, errors)

/-- The assignment-collection loop of `get_partition_keys_for_query`. -/
def collectAssignments (q : Query) : List Name → List (Name × F32) × Query
  | [] => ([], q)
  | v :: rest =>
      let r := q.scanTo v
      let r' := collectAssignments r.2 rest
      match r.1 with
      | some value => ((v, value) :: r'.1, r'.2)
      | none => (r'.1, r'.2)

/-- `RulePartitions::get_partition_keys_for_query`: reset, scan the sorted
partition variables, and key every subset of the assignments that hit
(the powerset; the empty subset is the no-partition bucket). -/
def RulePartitions.getPartitionKeysForQuery (rp : RulePartitions) (q : Query) :
    List PartitionKey × Query :=
  let r := collectAssignments q.reset rp.vars
  (r.1.sublists.map fun assignments => assignments.map fun a => (a.1, XF32.fin a.2), r.2)

/-- `RulePartitions::get_partition`: the bucket of a key, or the empty slice. -/
def getPartition (partitions : List (PartitionKey × List EngineRule))
    (key : PartitionKey) : List EngineRule :=
  match partitions.find? fun kv => kv.1 = key with
  | some kv => kv.2
  | none => []

/-- The criterion loop of `match_rule_criteria`: scan to each listed criterion
variable; a missing variable or a failed interval check rejects the rule. -/
def matchCriteriaGo (allCriteria : List EngineCriterion) :
    List Nat → Query → Bool × Query
  | [], q => (true, q)
  | i :: rest, q =>
      let criterion := criterionAt allCriteria i
      let r := q.scanTo criterion.var
      match r.1 with
      | some value =>
          if criterionAccepts criterion value then matchCriteriaGo allCriteria rest r.2
          else (false, r.2)
      | none => (false, r.2)

/-- `ResponseEngine::match_rule_criteria`. -/
def matchRuleCriteria (allCriteria : List EngineCriterion) (q : Query)
    (rule : EngineRule) : Bool × Query :=
  matchCriteriaGo allCriteria rule.criteria q.reset

/-- The inner loop of `find_best_matching_rule` over one partition: rules are
in descending score order, so a rule scoring below the best so far stops the
scan; a matching rule either replaces the best set (strictly higher score) or
joins it (tie). -/
def scanRules (allCriteria : List EngineCriterion) (key : PartitionKey) :
    List EngineRule → Nat → Weight → List (PartitionKey × Nat) → Query →
    Weight × List (PartitionKey × Nat) × Query
  | [], _, bestScore, best, q => (bestScore, best, q)
  | rule :: rest, i, bestScore, best, q =>
      if rule.score < bestScore then (bestScore, best, q)
      else
        let m := matchRuleCriteria allCriteria q rule
        if m.1 then
          if rule.score > bestScore then
            scanRules allCriteria key rest (i + 1) rule.score [(key, i)] m.2
          else
            scanRules allCriteria key rest (i + 1) bestScore (best ++ [(key, i)]) m.2
        else scanRules allCriteria key rest (i + 1) bestScore best m.2

/-- The outer loop of `find_best_matching_rule` over the candidate keys. -/
def scanPartitions (allCriteria : List EngineCriterion)
    (partitions : List (PartitionKey × List EngineRule)) :
    List PartitionKey → Weight → List (PartitionKey × Nat) → Query →
    Weight × List (PartitionKey × Nat) × Query
  | [], bestScore, best, q => (bestScore, best, q)
  | key :: rest, bestScore, best, q =>
      let r := scanRules allCriteria key (getPartition partitions key) 0 bestScore best q
      scanPartitions allCriteria partitions rest r.1 r.2.1 r.2.2

/-- `ResponseEngine::find_best_matching_rule` up to the final random choice:
the list of best-scoring matching rules, in scan order.  The scan consults
`score`, `criteria` and the partition keys of each rule only. -/
def ResponseEngine.findBestMatchingRule (e : ResponseEngine) (q : Query) :
    List (PartitionKey × Nat) × Query :=
  let keys := e.rules.getPartitionKeysForQuery q
  let r := scanPartitions e.criteria e.rules.partitions keys.1 0 [] keys.2
  (r.2.1, r.2.2)

/-- Model of rand `choose`: uniform selection abstracted by the oracle
`pick`; the empty list yields nothing. -/
def chooseUniform {α : Type} (pick : Nat) (l : List α) : Option α :=
  l.get? (pick % l.length)

/-- trill_script `ParseError` (payloads elided; only presence matters to the
modeled pipeline, which receives parse outcomes as input). -/
inductive ParseError where
  | unexpectedEof
  | unexpectedToken
  | lexError
deriving DecidableEq, Repr

/-- trill_script `Definition`: one parsed top-level form. -/
inductive Definition where
  | criterion (name : Name) (c : Criterion)
  | rule (name : Name) (r : Rule)
  | responseGroup (name : Name) (g : ResponseGroup)
deriving DecidableEq, Repr

/-- The outcome of running the parser on one module: the definitions parsed
before the end of the file or the first error, and that error if any.
The parser itself is abstracted by its outcome. -/
structure ModuleParse where
  defs : List Definition
  err : Option ParseError
deriving DecidableEq, Repr

/-- The registration arm of the `ScriptCompiler::compile` parse loop. -/
def registerModule (c : ResponseEngineCompiler) : List Definition → ResponseEngineCompiler
  | [] => c
  | .criterion name cr :: rest => registerModule (c.withCriterion name cr) rest
  | .rule name r :: rest => registerModule (c.withRule name r) rest
  | .responseGroup name g :: rest => registerModule (c.withResponseGroup name g) rest

/-- The module loop of `ScriptCompiler::compile`: register every parsed
definition and collect each module parse error with its file id. -/
def collectModules : List ModuleParse → Nat → ResponseEngineCompiler →
    ResponseEngineCompiler × List (Nat × ParseError)
  | [], _, c => (c, [])
  | m :: rest, i, c =>
      let c := registerModule c m.defs
      let r := collectModules rest (i + 1) c
      (r.1, (match m.err with | some e => [(i, e)] | none => []) ++ r.2)

/-- trill_script `ScriptReport` (source spans elided). -/
structure ScriptReport where
  parseErrors : List (Nat × ParseError)
  compileErrors : List CompileError
deriving DecidableEq, Repr

/-- `ScriptCompiler::compile`: parse all modules; any parse error suppresses
compilation; otherwise add the partition variables and run `finish`. -/
def scriptCompile (partitionVariables : List Name) (modules : List ModuleParse) :
    Option ResponseEngine × ScriptReport :=
  let r := collectModules modules 0 ResponseEngineCompiler.new
  if r.2.isEmpty then
    let compiler := partitionVariables.foldl ResponseEngineCompiler.withPartitionVariable r.1
    let f := compiler.finish
    (f.1, ⟨r.2, f.2⟩)
  else (none, ⟨r.2, []⟩)

/-- Invariant of every reachable encoder: all table codes lie strictly below
the next free code, and the codes are pairwise distinct. -/
def Encoder.Inv (e : Encoder) : Prop :=
  (∀ p ∈ e.encodings, p.2 < e.nextFloat) ∧ (e.encodings.map Prod.snd).Nodup

instance (e : Encoder) : Decidable e.Inv := by
  unfold Encoder.Inv
  infer_instance

theorem lookupA_mem {α : Type} {k : Name} {v : α} :
    ∀ {l : List (Name × α)}, lookupA k l = some v → (k, v) ∈ l := by
  intro l
  induction l with
  | nil => simp [lookupA]
  | cons p rest ih =>
      obtain ⟨a, b⟩ := p
      intro h
      rw [lookupA] at h
      by_cases hk : a = k
      · subst hk
        simp at h
        subst h
        exact List.mem_cons_self _ _
      · exact List.mem_cons_of_mem _ (ih (by simpa [hk] using h))

theorem lookupA_append_self {α : Type} {k : Name} (v : α) :
    ∀ {l : List (Name × α)}, lookupA k l = none → lookupA k (l ++ [(k, v)]) = some v := by
  intro l
  induction l with
  | nil => intro _; simp [lookupA]
  | cons p rest ih =>
      intro h
      rw [lookupA] at h
      by_cases hk : p.1 = k
      · simp [hk] at h
      · rw [List.cons_append, lookupA, if_neg hk]
        exact ih (by simpa [if_neg hk] using h)

/-- C5.  Within one engine instance, `encode_ustr` is idempotent (the second
call on the same string returns the first code and leaves the table
unchanged), the encoder invariant is preserved, and encoding is injective:
equal codes returned by consecutive calls of the same instance force equal
strings.  `Encoder.Inv` holds of the initial encoder and is preserved by every
call, so it holds of every reachable encoder state. -/
theorem claim_c5_encoder_idempotent_injective :
    Encoder.init.Inv ∧
    ∀ (e : Encoder) (s s1 s2 : Name), e.Inv →
      ((e.encodeUstr s).2.encodeUstr s = ((e.encodeUstr s).1, (e.encodeUstr s).2)
        ∧ (e.encodeUstr s).2.Inv
        ∧ ((e.encodeUstr s1).1 = ((e.encodeUstr s1).2.encodeUstr s2).1 → s1 = s2)) := by
  constructor
  · exact by decide
  intro e s s1 s2 hinv
  obtain ⟨hlt, hnd⟩ := hinv
  refine ⟨?_, ?_, ?_⟩
  · cases h : lookupA s e.encodings with
    | some c => simp [Encoder.encodeUstr, h]
    | none => simp [Encoder.encodeUstr, h, lookupA_append_self _ h]
  · cases h : lookupA s e.encodings with
    | some c =>
        have hr : (e.encodeUstr s).2 = e := by simp [Encoder.encodeUstr, h]
        rw [hr]
        exact ⟨hlt, hnd⟩
    | none =>
        have hr : (e.encodeUstr s).2 =
            ⟨nextUp e.nextFloat, e.encodings ++ [(s, e.nextFloat)]⟩ := by
          simp [Encoder.encodeUstr, h]
        rw [hr]
        refine ⟨?_, ?_⟩
        · intro p hp
          rcases List.mem_append.mp hp with hp | hp
          · exact lt_trans (hlt p hp) (by simp [nextUp])
          · simp at hp
            simp [hp, nextUp]
        · simp only [List.map_append, List.nodup_append]
          refine ⟨hnd, by simp, ?_⟩
          intro x hx
          simp only [List.map_cons, List.map_nil, List.mem_singleton]
          rcases List.mem_map.mp hx with ⟨p, hp, rfl⟩
          intro hc
          have hplt := hlt _ hp
          rw [hc] at hplt
          exact absurd hplt (lt_irrefl _)
  · intro heq
    cases h1 : lookupA s1 e.encodings with
    | some c1 =>
        simp only [Encoder.encodeUstr, h1] at heq
        cases h2 : lookupA s2 e.encodings with
        | some c2 =>
            simp only [h2] at heq
            subst heq
            have m1 := lookupA_mem h1
            have m2 := lookupA_mem h2
            have heq2 := List.inj_on_of_nodup_map hnd m1 m2 rfl
            exact congrArg Prod.fst heq2
        | none =>
            simp only [h2] at heq
            have := hlt _ (lookupA_mem h1)
            rw [heq] at this
            exact absurd this (lt_irrefl _)
    | none =>
        simp only [Encoder.encodeUstr, h1] at heq
        cases h2 : lookupA s2 (e.encodings ++ [(s1, e.nextFloat)]) with
        | some c2 =>
            simp only [h2] at heq
            subst heq
            rcases List.mem_append.mp (lookupA_mem h2) with hm | hm
            · exact absurd (hlt _ hm) (lt_irrefl _)
            · simp at hm
              exact hm.symm
        | none =>
            simp only [h2] at heq
            simp [nextUp] at heq

/-- Witness for C5 at the initial encoder and the strings 5 and 7. -/
theorem claim_c5_witness :
    ((Encoder.init.encodeUstr 5).2.encodeUstr 5
        = ((Encoder.init.encodeUstr 5).1, (Encoder.init.encodeUstr 5).2)
      ∧ (Encoder.init.encodeUstr 5).2.Inv
      ∧ ((Encoder.init.encodeUstr 5).1 = ((Encoder.init.encodeUstr 5).2.encodeUstr 7).1 → 5 = 7)) :=
  claim_c5_encoder_idempotent_injective.2 Encoder.init 5 5 7 (by decide)

/-- C3 (amended).  For a compiled range criterion the runtime check is
`min ≤ value ≤ max`; the exclusive form `in A..B` stores `next_down B` as the
upper bound, so a query value exactly equal to B always fails it, while the
inclusive form `in A..=B` stores B itself, so a value equal to B matches it
provided the range is nonempty (`A ≤ B`).  The nonemptiness proviso is the
amendment: with `A > B` the value B fails the inclusive form as well (see the
counterexample). -/
theorem claim_c3_range_bounds :
    ∀ (a b v : F32) (vn cn : Name) (w : Weight) (ctx : Context),
      v = b →
      ((a ≤ b →
          criterionAccepts
            ((Criterion.mk vn (compileRange (some a) true (some b)) w).build cn ctx).1 v = true)
        ∧ criterionAccepts
            ((Criterion.mk vn (compileRange (some a) false (some b)) w).build cn ctx).1 v
            = false) := by
  intro a b v vn cn w ctx hv
  subst hv
  constructor
  · intro hab
    simp [compileRange, Criterion.build, criterionAccepts, XF32.le, hab]
  · have hb : ¬ (v ≤ v - 1) := not_le.mpr (sub_one_lt v)
    simp [compileRange, Criterion.build, criterionAccepts, XF32.le, nextDown, hb]

/-- C3 counterexample to the unamended claim: for the inclusive range
`in 1..=0` (an empty range), the query value 0 — exactly the upper bound —
does not match, contradicting the claim that a value equal to B always hits
the closed form. -/
theorem claim_c3_counterexample :
    criterionAccepts
      ((Criterion.mk 0 (compileRange (some 1) true (some 0)) 1).build 0 Context.init).1 0
      = false := by decide

/-- Witness for C3 at the range 0..=5 / 0..5 and the query value 5. -/
theorem claim_c3_witness :
    (criterionAccepts
        ((Criterion.mk 0 (compileRange (some 0) true (some 5)) 1).build 0 Context.init).1 5
        = true)
    ∧ criterionAccepts
        ((Criterion.mk 0 (compileRange (some 0) false (some 5)) 1).build 0 Context.init).1 5
        = false :=
  ⟨(claim_c3_range_bounds 0 5 5 0 0 1 Context.init rfl).1 (by decide),
   (claim_c3_range_bounds 0 5 5 0 0 1 Context.init rfl).2⟩

/-- C2 (code bug).  On a response group with an empty responses list the
Shuffle, Random, Deplete and List dispatchers return nothing without failing,
but the Loop dispatcher evaluates `(index + 1) % len` with `len == 0`, which
in Rust panics with a remainder-by-zero — contradicting the specified
requirement that `next` on an empty group returns nothing and the runtime
does not crash. -/
theorem claim_c2_empty_group_loop_panics :
    ∀ pick : Nat,
      (((ResponseGroup.mk Delivery.loop []).build 0 Context.init).1.dispatcher.next pick
          = Except.error PanicKind.remainderByZero)
      ∧ (((ResponseGroup.mk Delivery.shuffle []).build 0 Context.init).1.dispatcher.next pick
          = Except.ok (none, ResponseDispatcher.shuffle [] []))
      ∧ (((ResponseGroup.mk Delivery.random []).build 0 Context.init).1.dispatcher.next pick
          = Except.ok (none, ResponseDispatcher.random []))
      ∧ (((ResponseGroup.mk Delivery.deplete []).build 0 Context.init).1.dispatcher.next pick
          = Except.ok (none, ResponseDispatcher.deplete [] []))
      ∧ (((ResponseGroup.mk Delivery.list []).build 0 Context.init).1.dispatcher.next pick
          = Except.ok (none, ResponseDispatcher.list 0 0)) := by
  intro pick
  exact ⟨rfl, rfl, rfl, rfl, rfl⟩

/-- The engine state after a Deplete or List dispatcher disabled its rule:
one rule in the empty-key partition, `enabled` already false. -/
def c1DisabledRule : EngineRule :=
  { criteria := [], responseGroups := [0], instructions := [], score := 0, enabled := false }

/-- A compiled engine holding only the disabled rule. -/
def c1Engine : ResponseEngine :=
  { criteria := []
    rules := ⟨[], [([], [c1DisabledRule])]⟩
    responseGroups := []
    encoder := Encoder.init }

/-- An empty query (empty request, character and world property sets). -/
def c1Query : Query := ⟨[⟨[], 0⟩, ⟨[], 0⟩, ⟨[], 0⟩]⟩

/-- C1 (code bug).  The rule scan of `find_best_matching_rule` consults only
the score, the criteria and the partition keys of each rule and never reads
the `enabled` flag: on an engine whose only rule has `enabled == false`, the
scan still criterion-matches the rule, still reports it as the unique best
rule, and the random choice still selects it for every random outcome — so on
a later call its instructions would be applied again, contradicting the
required Deplete/List semantics. -/
theorem claim_c1_disabled_rule_still_selected :
    ∀ pick : Nat,
      (c1Engine.findBestMatchingRule c1Query).1 = [([], 0)]
      ∧ chooseUniform pick (c1Engine.findBestMatchingRule c1Query).1 = some ([], 0)
      ∧ c1DisabledRule.enabled = false := by
  intro pick
  have h : (c1Engine.findBestMatchingRule c1Query).1 = [([], 0)] := by decide
  refine ⟨h, ?_, rfl⟩
  rw [h]
  simp [chooseUniform, Nat.mod_one]

theorem insertA_insertA {α : Type} (k : Name) (v1 v2 : α) :
    ∀ l : List (Name × α), insertA k v2 (insertA k v1 l) = insertA k v2 l := by
  intro l
  induction l with
  | nil => simp [insertA]
  | cons p rest ih =>
      obtain ⟨a, b⟩ := p
      by_cases hk : a = k
      · subst hk
        simp [insertA]
      · simp [insertA, hk, ih]

/-- C9.  Registering a second definition of the same kind under an existing
name silently replaces the first: the compiler state is exactly the state in
which only the later definition was ever registered, so compilation —
including its diagnostics — proceeds as if the earlier definition did not
exist, and no diagnostic about the duplication is emitted. -/
theorem claim_c9_duplicate_names_last_wins :
    ∀ (c : ResponseEngineCompiler) (name : Name) (c1 c2 : Criterion)
      (r1 r2 : Rule) (g1 g2 : ResponseGroup),
      ((c.withCriterion name c1).withCriterion name c2 = c.withCriterion name c2)
      ∧ ((c.withRule name r1).withRule name r2 = c.withRule name r2)
      ∧ ((c.withResponseGroup name g1).withResponseGroup name g2
          = c.withResponseGroup name g2)
      ∧ (((c.withCriterion name c1).withCriterion name c2).finish
          = (c.withCriterion name c2).finish)
      ∧ (((c.withRule name r1).withRule name r2).finish = (c.withRule name r2).finish)
      ∧ (((c.withResponseGroup name g1).withResponseGroup name g2).finish
          = (c.withResponseGroup name g2).finish) := by
  intro c name c1 c2 r1 r2 g1 g2
  have hc : (c.withCriterion name c1).withCriterion name c2 = c.withCriterion name c2 := by
    simp [ResponseEngineCompiler.withCriterion, insertA_insertA]
  have hr : (c.withRule name r1).withRule name r2 = c.withRule name r2 := by
    simp [ResponseEngineCompiler.withRule, insertA_insertA]
  have hg : (c.withResponseGroup name g1).withResponseGroup name g2
      = c.withResponseGroup name g2 := by
    simp [ResponseEngineCompiler.withResponseGroup, insertA_insertA]
  exact ⟨hc, hr, hg, congrArg _ hc, congrArg _ hr, congrArg _ hg⟩

/-- First-some choice, used to express "the last matching entry wins". -/
def orO {α : Type} : Option α → Option α → Option α
  | some x, _ => some x
  | none, y => y

/-- The payload of the last instruction of the list that targets `v`. -/
def lastInstrPayload (v : Name) : List Instruction → Option (Bool × Operation)
  | [] => none
  | inst :: rest =>
      orO (lastInstrPayload v rest)
        (if inst.var = v then some (inst.global, inst.operation) else none)

/-- The number of usage records held for the variable `v`. -/
def usageCount (v : Name) (m : List (Name × List VariableUsage)) : Nat :=
  ((lookupA v m).getD []).length

theorem orO_none_right {α : Type} (a : Option α) : orO a none = a := by
  cases a <;> rfl

theorem orO_assoc {α : Type} (a b c : Option α) :
    orO a (orO b c) = orO (orO a b) c := by
  cases a <;> cases b <;> rfl

theorem lookupA_insertA {α : Type} (v k : Name) (x : α) :
    ∀ l : List (Name × α),
      lookupA v (insertA k x l) = if k = v then some x else lookupA v l := by
  intro l
  induction l with
  | nil => simp [insertA, lookupA]
  | cons p rest ih =>
      obtain ⟨a, b⟩ := p
      by_cases hk : a = k
      · subst hk
        by_cases hv : a = v
        · subst hv
          simp [insertA, lookupA]
        · simp [insertA, lookupA, hv]
      · by_cases hv : a = v
        · subst hv
          have hkv : ¬ k = a := fun h => hk h.symm
          simp [insertA, lookupA, hk, hkv]
        · simp [insertA, lookupA, hk, hv, ih]

theorem usageCount_cons (v a : Name) (us : List VariableUsage)
    (m : List (Name × List VariableUsage)) :
    usageCount v ((a, us) :: m) = if a = v then us.length else usageCount v m := by
  by_cases h : a = v <;> simp [usageCount, lookupA, h]

theorem usageCount_pushUsage (v k : Name) (u : VariableUsage) :
    ∀ m : List (Name × List VariableUsage),
      usageCount v (pushUsage k u m) = usageCount v m + (if k = v then 1 else 0) := by
  intro m
  induction m with
  | nil =>
      by_cases hk : k = v <;>
        simp [pushUsage, usageCount_cons, usageCount, lookupA, hk]
  | cons p rest ih =>
      obtain ⟨a, us⟩ := p
      by_cases hk : a = k
      · subst hk
        rw [pushUsage, if_pos rfl, usageCount_cons, usageCount_cons]
        by_cases hv : a = v <;> simp [hv]
      · rw [pushUsage, if_neg hk, usageCount_cons, usageCount_cons]
        by_cases hv : a = v
        · subst hv
          have hkv : ¬ k = a := fun h => hk h.symm
          simp [hkv]
        · simp [hv, ih]

theorem buildInstructions_lookup (rn : Name) (v : Name) :
    ∀ (l : List Instruction) (m : List (Name × (Bool × Operation)))
      (us : List (Name × List VariableUsage)),
      lookupA v (buildInstructions rn l m us).1
        = orO (lastInstrPayload v l) (lookupA v m) := by
  intro l
  induction l with
  | nil => intro m us; simp [buildInstructions, lastInstrPayload, orO]
  | cons inst rest ih =>
      intro m us
      rw [buildInstructions, ih, lastInstrPayload]
      rw [← orO_assoc]
      congr 1
      rw [lookupA_insertA]
      by_cases h : inst.var = v
      · simp [h, orO]
      · simp [h, orO]

theorem buildInstructions_usages (rn : Name) (v : Name) :
    ∀ (l : List Instruction) (m : List (Name × (Bool × Operation)))
      (us : List (Name × List VariableUsage)),
      usageCount v (buildInstructions rn l m us).2
        = usageCount v us + (l.filter fun i => i.var = v).length := by
  intro l
  induction l with
  | nil => intro m us; simp [buildInstructions]
  | cons inst rest ih =>
      intro m us
      rw [buildInstructions, ih, usageCount_pushUsage]
      by_cases h : inst.var = v
      · simp [h, List.filter]
        omega
      · simp [h, List.filter]

/-- C10.  Within one rule, later instructions on the same variable silently
overwrite earlier ones in the compiled instruction map (the map holds exactly
the payload of the last instruction per variable); nevertheless every
instruction — kept or overwritten — contributes one type-usage record for its
variable; and the diagnostics produced by `Rule::build` are entirely
independent of the instruction list, so no diagnostic is emitted for the
duplication. -/
theorem claim_c10_duplicate_instructions_last_wins :
    ∀ (rn : Name) (r : Rule) (ctx : Context) (ac : List EngineCriterion)
      (ci : List (Name × (Nat × Weight × Bool))) (rgi : List (Name × Nat)) (v : Name),
      (lookupA v ((Rule.build r rn ctx ac ci rgi).1.1.instructions)
          = lastInstrPayload v r.instructions)
      ∧ (usageCount v ((Rule.build r rn ctx ac ci rgi).2.variableUsages)
          = usageCount v ctx.variableUsages
            + (r.instructions.filter fun i => i.var = v).length)
      ∧ ∀ l1 l2 : List Instruction,
          ((Rule.build { r with instructions := l1 } rn ctx ac ci rgi).2.errors
            = (Rule.build { r with instructions := l2 } rn ctx ac ci rgi).2.errors) := by
  intro rn r ctx ac ci rgi v
  refine ⟨?_, ?_, ?_⟩
  · show lookupA v (buildInstructions rn r.instructions [] ctx.variableUsages).1 = _
    rw [buildInstructions_lookup, lookupA, orO_none_right]
  · show usageCount v (buildInstructions rn r.instructions [] ctx.variableUsages).2 = _
    rw [buildInstructions_usages]
  · intro l1 l2
    rfl

theorem collectModules_errors_eq_nil :
    ∀ (mods : List ModuleParse) (i : Nat) (c : ResponseEngineCompiler),
      (collectModules mods i c).2 = [] ↔ ∀ m ∈ mods, m.err = none := by
  intro mods
  induction mods with
  | nil => intro i c; simp [collectModules]
  | cons m rest ih =>
      intro i c
      rw [collectModules]
      cases h : m.err with
      | none => simp [h, ih]
      | some e => simp [h]

/-- C7.  Compilation emits an engine exactly when the collected compile-error
set is empty; in the script pipeline the report always carries the collected
per-module parse errors, and the presence of any parse error yields no engine
together with a report holding exactly those parse errors (and no compile
errors, because compilation is not attempted). -/
theorem claim_c7_errors_suppress_engine :
    (∀ c : ResponseEngineCompiler, (c.finish.1.isSome ↔ c.finish.2 = []))
    ∧ ∀ (pv : List Name) (mods : List ModuleParse),
        ((scriptCompile pv mods).2.parseErrors
            = (collectModules mods 0 ResponseEngineCompiler.new).2)
        ∧ ((∃ m ∈ mods, m.err ≠ none) →
            (scriptCompile pv mods).1 = none
            ∧ (scriptCompile pv mods).2.parseErrors ≠ []
            ∧ (scriptCompile pv mods).2.compileErrors = []) := by
  constructor
  · intro c
    rw [ResponseEngineCompiler.finish]
    split
    · next h =>
        simp only [Option.isSome_some, true_iff]
        exact List.isEmpty_iff.mp h
    · next h =>
        simp only [Option.isSome_none, Bool.false_eq_true, false_iff]
        intro hnil
        exact h (by simp [hnil])
  · intro pv mods
    by_cases h : (collectModules mods 0 ResponseEngineCompiler.new).2.isEmpty
    · constructor
      · simp [scriptCompile, h]
      · rintro ⟨m, hm, hne⟩
        exact absurd ((collectModules_errors_eq_nil mods 0 _).mp
          (List.isEmpty_iff.mp h) m hm) hne
    · have hne : (collectModules mods 0 ResponseEngineCompiler.new).2 ≠ [] := by
        intro hnil
        exact h (by simp [hnil])
      constructor
      · simp [scriptCompile, h]
      · intro _
        refine ⟨?_, ?_, ?_⟩ <;> simp [scriptCompile, h, hne]

/-- Witness for C7: a single module whose parse ends in an unexpected EOF
suppresses the engine and is reported. -/
theorem claim_c7_witness :
    (scriptCompile [] [⟨[], some ParseError.unexpectedEof⟩]).1 = none
    ∧ (scriptCompile [] [⟨[], some ParseError.unexpectedEof⟩]).2.parseErrors ≠ []
    ∧ (scriptCompile [] [⟨[], some ParseError.unexpectedEof⟩]).2.compileErrors = [] :=
  (claim_c7_errors_suppress_engine.2 [] [⟨[], some ParseError.unexpectedEof⟩]).2
    ⟨⟨[], some ParseError.unexpectedEof⟩, by simp, by simp⟩

theorem findGe_none_iff (v : Name) :
    ∀ l : List (Name × F32), findGe v l = none ↔ ∀ p ∈ l, p.1 < v := by
  intro l
  induction l with
  | nil => simp [findGe]
  | cons p rest ih =>
      obtain ⟨a, b⟩ := p
      rw [findGe]
      by_cases hle : v ≤ a
      · simp only [if_pos hle]
        constructor
        · intro h; cases h
        · intro h
          exact absurd (h (a, b) (List.mem_cons_self _ _)) (not_lt.mpr hle)
      · simp only [if_neg hle]
        constructor
        · intro h q hq
          rcases List.mem_cons.mp hq with rfl | hq
          · exact not_le.mp hle
          · refine ih.mp ?_ q hq
            cases hfr : findGe v rest with
            | none => rfl
            | some t => rw [hfr] at h; cases h
        · intro h
          have hr : findGe v rest = none :=
            ih.mpr fun q hq => h q (List.mem_cons_of_mem _ hq)
          rw [hr]
          rfl

theorem findGe_some_spec (v : Name) :
    ∀ (l : List (Name × F32)) (i : Nat) (nm : Name) (x : F32),
      findGe v l = some (i, nm, x) →
      l[i]? = some (nm, x) ∧ v ≤ nm
        ∧ ∀ j < i, ∃ p, l[j]? = some p ∧ p.1 < v := by
  intro l
  induction l with
  | nil => intro i nm x h; simp [findGe] at h
  | cons p rest ih =>
      obtain ⟨a, b⟩ := p
      intro i nm x h
      rw [findGe] at h
      by_cases hle : v ≤ a
      · rw [if_pos hle] at h
        obtain ⟨rfl, rfl, rfl⟩ : i = 0 ∧ nm = a ∧ x = b := by
          cases h; exact ⟨rfl, rfl, rfl⟩
        exact ⟨by simp, hle, fun j hj => absurd hj (Nat.not_lt_zero j)⟩
      · rw [if_neg hle] at h
        cases hfr : findGe v rest with
        | none => rw [hfr] at h; cases h
        | some t =>
            obtain ⟨i0, nm0, x0⟩ := t
            rw [hfr] at h
            obtain ⟨rfl, rfl, rfl⟩ : i = i0 + 1 ∧ nm = nm0 ∧ x = x0 := by
              cases h; exact ⟨rfl, rfl, rfl⟩
            obtain ⟨hget, hv, hbefore⟩ := ih i0 _ _ hfr
            refine ⟨by simpa using hget, hv, ?_⟩
            intro j hj
            match j with
            | 0 => exact ⟨(a, b), by simp, not_le.mp hle⟩
            | j' + 1 =>
                obtain ⟨p, hp, hplt⟩ := hbefore j' (Nat.lt_of_succ_lt_succ hj)
                exact ⟨p, by simpa using hp, hplt⟩

/-- C8.  Under the cursor-in-bounds invariant — which `reset`, construction
and every call preserve — `scan_to` leaves the item list unchanged, moves the
cursor monotonically and keeps it within bounds (so the slice and index
accesses of the Rust code are in bounds for any sequence of calls), skips
exactly the entries before the first one with name `≥ var`, and lands either
on that entry (returning its value precisely when its name equals `var`) or
at the end of the list (returning nothing when no such entry exists). -/
theorem claim_c8_scanner_scan_to :
    ∀ (s : Scanner) (v : Name),
      s.cursor ≤ s.items.length →
      ((s.scanTo v).2.items = s.items
        ∧ s.cursor ≤ (s.scanTo v).2.cursor
        ∧ (s.scanTo v).2.cursor ≤ s.items.length
        ∧ (∀ j, s.cursor ≤ j → j < (s.scanTo v).2.cursor →
            ∃ p, s.items[j]? = some p ∧ p.1 < v)
        ∧ ((∃ p, s.items[(s.scanTo v).2.cursor]? = some p ∧ v ≤ p.1
              ∧ (s.scanTo v).1 = (if p.1 = v then some p.2 else none))
            ∨ ((s.scanTo v).2.cursor = s.items.length ∧ (s.scanTo v).1 = none))) := by
  intro s v hc
  cases h : findGe v (s.items.drop s.cursor) with
  | some t =>
      obtain ⟨i, nm, x⟩ := t
      have hs : s.scanTo v
          = (if nm = v then some x else none, { s with cursor := s.cursor + i }) := by
        rw [Scanner.scanTo, h]
      obtain ⟨hget, hle, hbefore⟩ := findGe_some_spec v _ i nm x h
      have hget' : s.items[s.cursor + i]? = some (nm, x) := by
        rw [← List.getElem?_drop]
        exact hget
      have hlt : s.cursor + i < s.items.length := by
        rcases List.getElem?_eq_some.mp hget' with ⟨hw, _⟩
        exact hw
      rw [hs]
      refine ⟨rfl, Nat.le_add_right _ _, le_of_lt hlt, ?_,
        Or.inl ⟨(nm, x), hget', hle, rfl⟩⟩
      intro j hj1 hj2
      obtain ⟨p, hp, hplt⟩ := hbefore (j - s.cursor) (by simp at hj2; omega)
      refine ⟨p, ?_, hplt⟩
      rw [← hp, List.getElem?_drop]
      congr 1
      omega
  | none =>
      have hs : s.scanTo v = (none, { s with cursor := s.items.length }) := by
        rw [Scanner.scanTo, h]
      have hmem := (findGe_none_iff v _).mp h
      rw [hs]
      refine ⟨rfl, hc, le_refl _, ?_, Or.inr ⟨rfl, rfl⟩⟩
      intro j hj1 hj2
      simp only at hj2
      have hj3 : j - s.cursor < (s.items.drop s.cursor).length := by
        rw [List.length_drop]
        omega
      have hp : (s.items.drop s.cursor)[j - s.cursor]?
          = some ((s.items.drop s.cursor)[j - s.cursor]) :=
        List.getElem?_eq_getElem hj3
      refine ⟨(s.items.drop s.cursor)[j - s.cursor], ?_, ?_⟩
      · rw [← hp, List.getElem?_drop]
        congr 1
        omega
      · exact hmem _ (List.getElem_mem hj3)

/-- Witness for C8: the scanner over [(1, 10), (3, 30)] at cursor 0, scanned
to the absent name 2, stops at the entry (3, 30) and returns nothing. -/
theorem claim_c8_witness :
    ((Scanner.mk [(1, 10), (3, 30)] 0).scanTo 2).2.items = [(1, 10), (3, 30)]
      ∧ 0 ≤ ((Scanner.mk [(1, 10), (3, 30)] 0).scanTo 2).2.cursor
      ∧ ((Scanner.mk [(1, 10), (3, 30)] 0).scanTo 2).2.cursor ≤ 2
      ∧ (∀ j, 0 ≤ j → j < ((Scanner.mk [(1, 10), (3, 30)] 0).scanTo 2).2.cursor →
          ∃ p, [((1 : Name), (10 : F32)), (3, 30)][j]? = some p ∧ p.1 < 2)
      ∧ ((∃ p, [((1 : Name), (10 : F32)),
            (3, 30)][((Scanner.mk [(1, 10), (3, 30)] 0).scanTo 2).2.cursor]? = some p
            ∧ 2 ≤ p.1
            ∧ ((Scanner.mk [(1, 10), (3, 30)] 0).scanTo 2).1
              = (if p.1 = 2 then some p.2 else none))
          ∨ (((Scanner.mk [(1, 10), (3, 30)] 0).scanTo 2).2.cursor = 2
              ∧ ((Scanner.mk [(1, 10), (3, 30)] 0).scanTo 2).1 = none)) :=
  claim_c8_scanner_scan_to (Scanner.mk [(1, 10), (3, 30)] 0) 2 (by decide)

/-- The variable of the criterion at index `i` (the sort key of the scan
list of a compiled rule). -/
def varOf (ac : List EngineCriterion) (i : Nat) : Name :=
  (criterionAt ac i).var

/-- Specification of the weights a rule accumulates: walking the referenced
criterion names in order, a resolved reference whose variable has not been
seen before contributes its weight; repeats of a variable and unresolved
names contribute nothing. -/
def includedWeights (ac : List EngineCriterion)
    (ci : List (Name × (Nat × Weight × Bool))) :
    List Name → List Name → List Weight
  | [], _ => []
  | cname :: rest, seen =>
      match lookupA cname ci with
      | some (i, w, _) =>
          if (criterionAt ac i).var ∈ seen then
            includedWeights ac ci rest seen
          else w :: includedWeights ac ci rest (seen ++ [(criterionAt ac i).var])
      | none => includedWeights ac ci rest seen

/-- The criteria pass of `finish`, as a function of the compiler state. -/
def criteriaPass (c : ResponseEngineCompiler) :
    List EngineCriterion × List (Name × (Nat × Weight × Bool)) × Context :=
  compileCriteria c.partitionVariables c.criteria ([], [], Context.init)

/-- The compiled criteria list of `finish`. -/
def criteriaOf (c : ResponseEngineCompiler) : List EngineCriterion :=
  (criteriaPass c).1

/-- The criterion name index of `finish`. -/
def criteriaIndexOf (c : ResponseEngineCompiler) :
    List (Name × (Nat × Weight × Bool)) :=
  (criteriaPass c).2.1

/-- The response-group pass of `finish`, as a function of the compiler state. -/
def groupsPass (c : ResponseEngineCompiler) :
    List EngineResponseGroup × List (Name × Nat) × Context :=
  compileResponseGroups c.responseGroups ([], [], (criteriaPass c).2.2)

theorem finish_some (c : ResponseEngineCompiler) (e : ResponseEngine)
    (errs : List CompileError) (h : c.finish = (some e, errs)) :
    e.criteria = criteriaOf c
    ∧ e.rules.partitions
        = ((compileRules (criteriaOf c) (criteriaIndexOf c) (groupsPass c).2.1 c.rules
            ([], (groupsPass c).2.2)).1.map fun kv =>
              (kv.1, List.insertionSort (fun ra rb => rb.score ≤ ra.score) kv.2)) := by
  rw [ResponseEngineCompiler.finish] at h
  split at h
  · simp only [Prod.mk.injEq, Option.some.injEq] at h
    rw [← h.1]
    exact ⟨rfl, rfl⟩
  · simp at h

theorem buildRuleCriteria_score (rn : Name) (ac : List EngineCriterion)
    (ci : List (Name × (Nat × Weight × Bool))) :
    ∀ (names : List Name) (acc : RuleAcc),
      (buildRuleCriteria rn ac ci names acc).score
        = acc.score + (includedWeights ac ci names acc.used).sum := by
  intro names
  induction names with
  | nil => intro acc; simp [buildRuleCriteria, includedWeights]
  | cons cname rest ih =>
      intro acc
      rw [buildRuleCriteria, includedWeights]
      cases hlk : lookupA cname ci with
      | none => simp only [ih]
      | some t =>
          obtain ⟨i, w, partition⟩ := t
          set v := (criterionAt ac i).var with hvdef
          by_cases hv : v ∈ acc.used
          · by_cases hrep : v ∈ acc.repeated
            · simp [hv, hrep, ih]
            · simp [hv, hrep, ih]
          · by_cases hp : partition
            · subst hp
              simp [hv, ih, add_assoc]
            · simp only [Bool.not_eq_true] at hp
              subst hp
              simp [hv, ih, add_assoc]

theorem buildRuleCriteria_invariant (rn : Name) (ac : List EngineCriterion)
    (ci : List (Name × (Nat × Weight × Bool))) :
    ∀ (names : List Name) (acc : RuleAcc),
      ((acc.criteria.map (varOf ac)).Nodup
        ∧ ∀ i ∈ acc.criteria, varOf ac i ∈ acc.used) →
      (((buildRuleCriteria rn ac ci names acc).criteria.map (varOf ac)).Nodup
        ∧ ∀ i ∈ (buildRuleCriteria rn ac ci names acc).criteria,
            varOf ac i ∈ (buildRuleCriteria rn ac ci names acc).used) := by
  intro names
  induction names with
  | nil => intro acc hacc; rw [buildRuleCriteria]; exact hacc
  | cons cname rest ih =>
      intro acc hacc
      rw [buildRuleCriteria]
      cases hlk : lookupA cname ci with
      | none => exact ih _ hacc
      | some t =>
          obtain ⟨i, w, partition⟩ := t
          dsimp only
          set v := (criterionAt ac i).var with hvdef
          by_cases hv : v ∈ acc.used
          · rw [if_pos hv]
            by_cases hrep : v ∈ acc.repeated
            · rw [if_pos hrep]; exact ih _ hacc
            · rw [if_neg hrep]; exact ih _ hacc
          · rw [if_neg hv]
            by_cases hp : partition
            · subst hp
              rw [if_pos rfl]
              refine ih _ ⟨hacc.1, ?_⟩
              intro j hj
              exact List.mem_append_left _ (hacc.2 j hj)
            · rw [if_neg (by simpa using hp)]
              refine ih _ ⟨?_, ?_⟩
              · rw [List.map_append, List.nodup_append]
                refine ⟨hacc.1, by simp, ?_⟩
                intro x hx
                simp only [List.map_cons, List.map_nil, List.mem_singleton]
                rcases List.mem_map.mp hx with ⟨j, hj, rfl⟩
                intro he
                refine hv ?_
                show varOf ac i ∈ acc.used
                rw [← he]
                exact hacc.2 j hj
              · intro j hj
                rcases List.mem_append.mp hj with hj | hj
                · exact List.mem_append_left _ (hacc.2 j hj)
                · simp at hj
                  subst hj
                  refine List.mem_append_right _ ?_
                  rw [varOf, ← hvdef]
                  simp

theorem pairwise_lt_of_le_nodup {α : Type} (f : α → Name) :
    ∀ l : List α, List.Pairwise (fun a b => f a ≤ f b) l → (l.map f).Nodup →
      List.Pairwise (fun a b => f a < f b) l := by
  intro l
  induction l with
  | nil => intro _ _; exact List.Pairwise.nil
  | cons a rest ih =>
      intro hp hn
      rw [List.pairwise_cons] at hp ⊢
      rw [List.map_cons, List.nodup_cons] at hn
      refine ⟨?_, ih hp.2 hn.2⟩
      intro b hb
      refine lt_of_le_of_ne (hp.1 b hb) ?_
      intro he
      exact hn.1 (he ▸ List.mem_map_of_mem f hb)

theorem ruleBuild_criteria_sorted (rn : Name) (ctx : Context)
    (ac : List EngineCriterion) (ci : List (Name × (Nat × Weight × Bool)))
    (rgi : List (Name × Nat)) (r : Rule) :
    List.Pairwise (fun i j => varOf ac i < varOf ac j)
      ((Rule.build r rn ctx ac ci rgi).1.1.criteria) := by
  have hdef : (Rule.build r rn ctx ac ci rgi).1.1.criteria
      = List.insertionSort
          (fun i j => (criterionAt ac i).var ≤ (criterionAt ac j).var)
          ((buildRuleCriteria rn ac ci r.criteria RuleAcc.init).criteria) := rfl
  rw [hdef]
  have hacc := buildRuleCriteria_invariant rn ac ci r.criteria RuleAcc.init
    (by simp [RuleAcc.init])
  haveI : IsTotal Nat (fun i j => (criterionAt ac i).var ≤ (criterionAt ac j).var) :=
    ⟨fun a b => le_total _ _⟩
  haveI : IsTrans Nat (fun i j => (criterionAt ac i).var ≤ (criterionAt ac j).var) :=
    ⟨fun a b c hab hbc => le_trans hab hbc⟩
  have hsorted := List.sorted_insertionSort
    (fun i j => (criterionAt ac i).var ≤ (criterionAt ac j).var)
    ((buildRuleCriteria rn ac ci r.criteria RuleAcc.init).criteria)
  have hperm := List.perm_insertionSort
    (fun i j => (criterionAt ac i).var ≤ (criterionAt ac j).var)
    ((buildRuleCriteria rn ac ci r.criteria RuleAcc.init).criteria)
  have hnodup : ((List.insertionSort
      (fun i j => (criterionAt ac i).var ≤ (criterionAt ac j).var)
      ((buildRuleCriteria rn ac ci r.criteria RuleAcc.init).criteria)).map
        (varOf ac)).Nodup :=
    (List.Perm.nodup_iff (hperm.map (varOf ac))).mpr hacc.1
  exact pairwise_lt_of_le_nodup (varOf ac) _ hsorted hnodup

theorem ruleBuild_score (rn : Name) (ctx : Context) (ac : List EngineCriterion)
    (ci : List (Name × (Nat × Weight × Bool))) (rgi : List (Name × Nat)) (r : Rule) :
    (Rule.build r rn ctx ac ci rgi).1.1.score
      = (includedWeights ac ci r.criteria []).sum := by
  have hdef : (Rule.build r rn ctx ac ci rgi).1.1.score
      = (buildRuleCriteria rn ac ci r.criteria RuleAcc.init).score := rfl
  rw [hdef, buildRuleCriteria_score]
  show RuleAcc.init.score + _ = _
  simp [RuleAcc.init]

/-- Every rule of every bucket of a partition list satisfies `P`. -/
def EveryRule (P : EngineRule → Prop)
    (parts : List (PartitionKey × List EngineRule)) : Prop :=
  ∀ kv ∈ parts, ∀ r ∈ kv.2, P r

theorem everyRule_appendToPartition {P : EngineRule → Prop}
    {r : EngineRule} (hr : P r) (key : PartitionKey) :
    ∀ {parts : List (PartitionKey × List EngineRule)}, EveryRule P parts →
      EveryRule P (appendToPartition key r parts) := by
  intro parts
  induction parts with
  | nil =>
      intro _ kv hkv q hq
      rw [appendToPartition] at hkv
      rcases List.mem_singleton.mp hkv with rfl
      rcases List.mem_singleton.mp hq with rfl
      exact hr
  | cons p rest ih =>
      obtain ⟨k, rs⟩ := p
      intro h kv hkv q hq
      rw [appendToPartition] at hkv
      by_cases hk : k = key
      · rw [if_pos hk] at hkv
        rcases List.mem_cons.mp hkv with rfl | hkv
        · rcases List.mem_append.mp hq with hq | hq
          · exact h (k, rs) (List.mem_cons_self _ _) q hq
          · rcases List.mem_singleton.mp hq with rfl
            exact hr
        · exact h kv (List.mem_cons_of_mem _ hkv) q hq
      · rw [if_neg hk] at hkv
        rcases List.mem_cons.mp hkv with rfl | hkv
        · exact h (k, rs) (List.mem_cons_self _ _) q hq
        · exact ih (fun kv2 hkv2 => h kv2 (List.mem_cons_of_mem _ hkv2)) kv hkv q hq

theorem everyRule_compileRules (ac : List EngineCriterion)
    (ci : List (Name × (Nat × Weight × Bool))) (rgi : List (Name × Nat))
    (P : EngineRule → Prop) :
    ∀ (lst : List (Name × Rule)) (parts : List (PartitionKey × List EngineRule))
      (ctx : Context),
      EveryRule P parts →
      (∀ name rule, (name, rule) ∈ lst →
        ∀ c0 : Context, P ((Rule.build rule name c0 ac ci rgi).1.1)) →
      EveryRule P (compileRules ac ci rgi lst (parts, ctx)).1 := by
  intro lst
  induction lst with
  | nil => intro parts ctx h _; exact h
  | cons p rest ih =>
      obtain ⟨name, rule⟩ := p
      intro parts ctx h hb
      rw [compileRules]
      exact ih _ _
        (everyRule_appendToPartition (hb name rule (List.mem_cons_self _ _) ctx) _ h)
        (fun n rl hm c0 => hb n rl (List.mem_cons_of_mem _ hm) c0)

theorem everyRule_map_sort {P : EngineRule → Prop}
    (rel : EngineRule → EngineRule → Prop) [DecidableRel rel]
    {parts : List (PartitionKey × List EngineRule)} (h : EveryRule P parts) :
    EveryRule P (parts.map fun kv => (kv.1, List.insertionSort rel kv.2)) := by
  intro kv hkv q hq
  rcases List.mem_map.mp hkv with ⟨kv0, hkv0, rfl⟩
  exact h kv0 hkv0 q ((List.perm_insertionSort rel kv0.2).mem_iff.mp hq)

/-- C6.  In every compiled engine, the scan list of every rule names
criteria whose variables are strictly increasing (hence distinct and in
ascending variable-name order), and the score of every rule is the sum of the
weights of its included criterion references — the resolved references,
counting each variable at most once, partition criteria included — as
described by `includedWeights` walking the source rule. -/
theorem claim_c6_sorted_criteria_and_score_sum :
    ∀ (c : ResponseEngineCompiler) (e : ResponseEngine) (errs : List CompileError),
      c.finish = (some e, errs) →
      ∀ kv ∈ e.rules.partitions, ∀ r ∈ kv.2,
        List.Pairwise (fun i j => varOf e.criteria i < varOf e.criteria j) r.criteria
        ∧ ∃ name rule, (name, rule) ∈ c.rules
            ∧ r.score
              = (includedWeights e.criteria (criteriaIndexOf c) rule.criteria []).sum := by
  intro c e errs h
  obtain ⟨hcr, hparts⟩ := finish_some c e errs h
  rw [hcr, hparts]
  have hall : EveryRule
      (fun r =>
        List.Pairwise (fun i j => varOf (criteriaOf c) i < varOf (criteriaOf c) j) r.criteria
        ∧ ∃ name rule, (name, rule) ∈ c.rules
            ∧ r.score
              = (includedWeights (criteriaOf c) (criteriaIndexOf c) rule.criteria []).sum)
      ((compileRules (criteriaOf c) (criteriaIndexOf c) (groupsPass c).2.1 c.rules
          ([], (groupsPass c).2.2)).1.map fun kv =>
            (kv.1, List.insertionSort (fun ra rb => rb.score ≤ ra.score) kv.2)) := by
    apply everyRule_map_sort
    apply everyRule_compileRules
    · intro kv hkv
      simp at hkv
    · intro name rule hm c0
      exact ⟨ruleBuild_criteria_sorted name c0 (criteriaOf c) (criteriaIndexOf c)
          (groupsPass c).2.1 rule,
        name, rule, hm,
        ruleBuild_score name c0 (criteriaOf c) (criteriaIndexOf c) (groupsPass c).2.1 rule⟩
  exact hall

theorem mem_insertA {α : Type} {x : Name × α} {k : Name} {v : α} :
    ∀ {l : List (Name × α)}, x ∈ insertA k v l → x = (k, v) ∨ x ∈ l := by
  intro l
  induction l with
  | nil => intro h; simp [insertA] at h; exact Or.inl h
  | cons p rest ih =>
      obtain ⟨a, b⟩ := p
      intro h
      rw [insertA] at h
      by_cases hk : a = k
      · rw [if_pos hk] at h
        rcases List.mem_cons.mp h with rfl | h
        · exact Or.inl rfl
        · exact Or.inr (List.mem_cons_of_mem _ h)
      · rw [if_neg hk] at h
        rcases List.mem_cons.mp h with rfl | h
        · exact Or.inr (List.mem_cons_self _ _)
        · rcases ih h with h | h
          · exact Or.inl h
          · exact Or.inr (List.mem_cons_of_mem _ h)

theorem compileCriteria_index_weights (pv : List Name) :
    ∀ (lst : List (Name × Criterion))
      (acc : List EngineCriterion × List (Name × (Nat × Weight × Bool)) × Context),
      ∀ entry ∈ (compileCriteria pv lst acc).2.1,
        entry ∈ acc.2.1 ∨ ∃ q ∈ lst, entry.2.2.1 = q.2.weight := by
  intro lst
  induction lst with
  | nil => intro acc entry h; exact Or.inl h
  | cons p rest ih =>
      obtain ⟨name, criterion⟩ := p
      intro acc entry h
      rw [compileCriteria] at h
      rcases ih _ entry h with h | ⟨q, hq, heq⟩
      · rcases mem_insertA h with rfl | h
        · exact Or.inr ⟨(name, criterion), List.mem_cons_self _ _, rfl⟩
        · exact Or.inl h
      · exact Or.inr ⟨q, List.mem_cons_of_mem _ hq, heq⟩

theorem includedWeights_mem (ac : List EngineCriterion)
    (ci : List (Name × (Nat × Weight × Bool))) :
    ∀ (names seen : List Name) (x : Weight), x ∈ includedWeights ac ci names seen →
      ∃ n iwb, lookupA n ci = some iwb ∧ x = iwb.2.1 := by
  intro names
  induction names with
  | nil => intro seen x h; simp [includedWeights] at h
  | cons cname rest ih =>
      intro seen x h
      rw [includedWeights] at h
      cases hlk : lookupA cname ci with
      | none =>
          rw [hlk] at h
          exact ih seen x h
      | some t =>
          obtain ⟨i, w, b⟩ := t
          rw [hlk] at h
          dsimp only at h
          by_cases hv : (criterionAt ac i).var ∈ seen
          · rw [if_pos hv] at h
            exact ih seen x h
          · rw [if_neg hv] at h
            rcases List.mem_cons.mp h with rfl | h
            · exact ⟨cname, (i, x, b), hlk, rfl⟩
            · exact ih _ x h

/-- C4 (amended).  When every registered criterion weight is nonnegative,
every rule of the compiled engine has a nonnegative score.  With arbitrary
signed weights the unamended claim fails: see the counterexample, where one
criterion of weight -5 yields a rule of score -5. -/
theorem claim_c4_scores_nonneg :
    ∀ (c : ResponseEngineCompiler),
      (∀ p ∈ c.criteria, 0 ≤ p.2.weight) →
      ∀ (e : ResponseEngine) (errs : List CompileError),
        c.finish = (some e, errs) →
        ∀ kv ∈ e.rules.partitions, ∀ r ∈ kv.2, 0 ≤ r.score := by
  intro c hw e errs h
  obtain ⟨hcr, hparts⟩ := finish_some c e errs h
  rw [hparts]
  apply everyRule_map_sort
  apply everyRule_compileRules
  · intro kv hkv
    simp at hkv
  · intro name rule hm c0
    rw [ruleBuild_score]
    apply List.sum_nonneg
    intro x hx
    obtain ⟨n, iwb, hlk, rfl⟩ := includedWeights_mem _ _ _ _ _ hx
    have hmem := lookupA_mem hlk
    rcases compileCriteria_index_weights c.partitionVariables c.criteria
        ([], [], Context.init) _ hmem with hacc | ⟨q, hq, heq⟩
    · simp at hacc
    · rw [heq]
      exact hw q hq

/-- A compiler input with a single criterion of weight -5, referenced by a
single rule (response group included so that compilation succeeds). -/
def c4Compiler : ResponseEngineCompiler :=
  ((ResponseEngineCompiler.new.withCriterion 1
      ⟨100, Predicate.numEqual 0, -5⟩).withRule 2
      ⟨[1], [3], []⟩).withResponseGroup 3 ⟨Delivery.shuffle, [[]]⟩

/-- The engine `c4Compiler` compiles to. -/
def c4Engine : ResponseEngine :=
  { criteria := [⟨100, XF32.fin 0, XF32.fin 0⟩]
    rules := ⟨[], [([], [⟨[0], [0], [], 0 + (-5), true⟩])]⟩
    responseGroups := [⟨ResponseDispatcher.shuffle [1] [0], [[]]⟩]
    encoder := Encoder.init }

/-- C4 counterexample to the unamended claim: a criterion weight is an
arbitrary signed literal, and a weight of -5 compiles — without any
diagnostic — to an engine whose single rule has score -5 < 0. -/
theorem claim_c4_counterexample :
    ∃ e, c4Compiler.finish.1 = some e
      ∧ ∃ kv ∈ e.rules.partitions, ∃ r ∈ kv.2, r.score < 0 := by
  have hf : c4Compiler.finish = (some c4Engine, []) := rfl
  refine ⟨c4Engine, by rw [hf], ?_⟩
  refine ⟨([], [⟨[0], [0], [], 0 + (-5), true⟩]), by simp [c4Engine],
    ⟨[0], [0], [], 0 + (-5), true⟩, by simp, ?_⟩
  show (0 : Weight) + (-5) < 0
  norm_num

/-- The positive-weight variant of `c4Compiler`, used by the witnesses. -/
def c6Compiler : ResponseEngineCompiler :=
  ((ResponseEngineCompiler.new.withCriterion 1
      ⟨100, Predicate.numEqual 0, 2⟩).withRule 2
      ⟨[1], [3], []⟩).withResponseGroup 3 ⟨Delivery.shuffle, [[]]⟩

/-- The engine `c6Compiler` compiles to. -/
def c6Engine : ResponseEngine :=
  { criteria := [⟨100, XF32.fin 0, XF32.fin 0⟩]
    rules := ⟨[], [([], [⟨[0], [0], [], 0 + 2, true⟩])]⟩
    responseGroups := [⟨ResponseDispatcher.shuffle [1] [0], [[]]⟩]
    encoder := Encoder.init }

/-- Witness for C4 at a compiler with one criterion of weight 2, evaluated at
the single rule of the compiled engine. -/
theorem claim_c4_witness :
    0 ≤ (⟨[0], [0], [], 0 + 2, true⟩ : EngineRule).score :=
  claim_c4_scores_nonneg c6Compiler (by decide) c6Engine [] rfl
    ([], [⟨[0], [0], [], 0 + 2, true⟩]) (by simp [c6Engine])
    ⟨[0], [0], [], 0 + 2, true⟩ (by simp)

/-- Witness for C6 at the same compiler, evaluated at the single rule of the
compiled engine. -/
theorem claim_c6_witness :
    List.Pairwise
      (fun i j => varOf c6Engine.criteria i < varOf c6Engine.criteria j)
      (⟨[0], [0], [], 0 + 2, true⟩ : EngineRule).criteria
    ∧ ∃ name rule, (name, rule) ∈ c6Compiler.rules
        ∧ (⟨[0], [0], [], 0 + 2, true⟩ : EngineRule).score
          = (includedWeights c6Engine.criteria (criteriaIndexOf c6Compiler)
              rule.criteria []).sum :=
  claim_c6_sorted_criteria_and_score_sum c6Compiler c6Engine [] rfl
    ([], [⟨[0], [0], [], 0 + 2, true⟩]) (by simp [c6Engine])
    ⟨[0], [0], [], 0 + 2, true⟩ (by simp)

end Trill
